import Mathlib

/-!
Verification of the batchelor job-batching utility (`src/lib.rs`).

Strings are modelled as `List Char` (Rust `String`/`str`); byte streams
from child processes are modelled as `List Nat` (Rust `Vec<u8>`).
-/

/-- Convert a Lean string literal to the `List Char` model. -/
def chars (s : String) : List Char := s.data

/-! ## Shell quoter (`shell_quote`, lib.rs 298-307) -/

/-- Extra bytes of the safe set in `shell_quote`: at-sign, percent,
underscore, plus, equals, colon, comma, dot, slash, dash. -/
def safeExtra : List Char := ['@', '%', '_', '+', '=', ':', ',', '.', '/', '-']

/-- One character is safe iff it is ASCII alphanumeric or in `safeExtra`
(`Char.isAlphanum` covers exactly the ASCII alphanumerics). -/
def isSafeChar (c : Char) : Bool := c.isAlphanum || safeExtra.contains c

/-- `s.replace('\'', "'\\''")`: each single quote becomes the four
characters quote, backslash, quote, quote. -/
def quoteEscape : List Char → List Char
  | [] => []
  | c :: rest =>
      if c = '\'' then '\'' :: '\\' :: '\'' :: '\'' :: quoteEscape rest
      else c :: quoteEscape rest

/-- `shell_quote` from lib.rs: empty strings become `''`; all-safe strings
are returned unchanged; anything else is wrapped in single quotes with
embedded quotes escaped. -/
def shell_quote (s : List Char) : List Char :=
  if s = [] then chars "''"
  else if s.all isSafeChar then s
  else '\'' :: (quoteEscape s ++ chars "'")

/-! ## POSIX shell-word splitting (the `shlex` crate's `split`)

`submit_job` and `parse_template_tokens` call `shlex::split`.  We model its
byte-level scanner as a character state machine: outside quotes whitespace
(space, tab, newline) separates words, `#` at a word start begins a comment
running to the end of line, `\` escapes the next character (a backslash-newline
is a line continuation), `'...'` is literal, and inside `"..."` a backslash
escapes only `$`, a backtick, `"`, `\` and newline.  `split` returns `none`
when the input ends inside a quote or right after a backslash. -/

/-- Scanner mode of the shlex word splitter. -/
inductive SxMode where
  | normal
  | single
  | double
  | doubleEsc
  | esc
  | comment
deriving DecidableEq, Repr

/-- Scanner state: mode, the word accumulated so far, whether a word is in
progress, and the completed words. -/
structure SxState where
  mode : SxMode
  cur : List Char
  inWord : Bool
  words : List (List Char)
deriving DecidableEq, Repr

/-- One step of the shlex scanner. -/
def sxStep (st : SxState) (c : Char) : SxState :=
  match st.mode with
  | .comment => if c = '\n' then { st with mode := .normal } else st
  | .esc =>
      if c = '\n' then { st with mode := .normal }
      else { st with mode := .normal, cur := st.cur ++ [c] }
  | .doubleEsc =>
      if c = '$' ∨ c = '`' ∨ c = '"' ∨ c = '\\' then
        { st with mode := .double, cur := st.cur ++ [c] }
      else if c = '\n' then { st with mode := .double }
      else { st with mode := .double, cur := st.cur ++ ['\\', c] }
  | .double =>
      if c = '"' then { st with mode := .normal }
      else if c = '\\' then { st with mode := .doubleEsc }
      else { st with cur := st.cur ++ [c] }
  | .single =>
      if c = '\'' then { st with mode := .normal }
      else { st with cur := st.cur ++ [c] }
  | .normal =>
      if c = ' ' ∨ c = '\t' ∨ c = '\n' then
        if st.inWord then { mode := .normal, cur := [], inWord := false, words := st.words ++ [st.cur] }
        else st
      else if c = '#' ∧ st.inWord = false then { st with mode := .comment }
      else if c = '\'' then { st with mode := .single, inWord := true }
      else if c = '"' then { st with mode := .double, inWord := true }
      else if c = '\\' then { st with mode := .esc, inWord := true }
      else { st with inWord := true, cur := st.cur ++ [c] }

/-- The scanner's initial state. -/
def sxInit : SxState := { mode := .normal, cur := [], inWord := false, words := [] }

/-- Finish scanning: an open quote or trailing backslash is an error;
otherwise flush the in-progress word. -/
def sxFinish (st : SxState) : Option (List (List Char)) :=
  match st.mode with
  | .normal => some (if st.inWord then st.words ++ [st.cur] else st.words)
  | .comment => some st.words
  | _ => none

/-- `shlex::split`. -/
def shlex_split (s : List Char) : Option (List (List Char)) :=
  sxFinish (s.foldl sxStep sxInit)

/-! ## Input-passing conventions (lib.rs 277-288) -/

/-- Greatest value of a 64-bit `usize`. -/
def USIZE_MAX : Nat := 2 ^ 64 - 1

/-- Numeric value of a digit string (most significant digit first). -/
def digitsVal (d : List Char) : Nat := d.foldl (fun acc c => acc * 10 + (c.toNat - 48)) 0

/-- Rust `<usize as FromStr>::from_str`: an optional leading plus sign, then
one or more ASCII digits; overflow past `USIZE_MAX` is an error.  (For
unsigned types a minus sign is never stripped and fails digit parsing.) -/
def parseUsize (s : List Char) : Option Nat :=
  let digits :=
    match s with
    | c :: rest => if c = '+' then rest else s
    | [] => []
  if digits = [] then none
  else if digits.all Char.isDigit then
    if digitsVal digits ≤ USIZE_MAX then some (digitsVal digits) else none
  else none

/-- `parse_positional_slot` from lib.rs: strip a leading dollar sign, parse
the rest as `usize`, and reject slot 0. -/
def parse_positional_slot (s : List Char) : Option Nat :=
  match s with
  | [] => none
  | c :: rest =>
      if c = '$' then
        match parseUsize rest with
        | none => none
        | some idx => if idx = 0 then none else some idx
      else none

/-- Rust `t.contains("$1")`: some position starts with the two characters
dollar, one. -/
def containsD1 : List Char → Bool
  | '$' :: '1' :: _ => true
  | _ :: rest => containsD1 rest
  | [] => false

/-- Rust `t.replace("$1", input)`: replace every non-overlapping occurrence
of the two-character pattern, scanning left to right. -/
def replaceD1 (input : List Char) : List Char → List Char
  | '$' :: '1' :: rest => input ++ replaceD1 input rest
  | c :: rest => c :: replaceD1 input rest
  | [] => []

/-- `parse_template_tokens` from lib.rs:
`shlex::split(input_flag).unwrap_or_else(|| vec![input_flag.to_string()])`. -/
def parse_template_tokens (input_flag : List Char) : List (List Char) :=
  match shlex_split input_flag with
  | some toks => toks
  | none => [input_flag]

/-- `has_template` as computed in `write_job_script`:
`template_tokens.iter().any(|t| t.contains("$1"))`. -/
def hasTemplate (input_flag : List Char) : Bool :=
  (parse_template_tokens input_flag).any containsD1

/-- The three input-passing conventions. -/
inductive Convention where
  | slot (n : Nat)
  | template
  | flag
deriving DecidableEq, Repr

/-- Convention selection with the precedence used by `write_job_script`:
positional slot first, then token template, else named flag. -/
def classify (input_flag : List Char) : Convention :=
  match parse_positional_slot input_flag with
  | some n => .slot n
  | none => if hasTemplate input_flag then .template else .flag

/-! ## Invocation lines and job scripts (`write_job_script`, lib.rs 177-241) -/

/-- `Vec::insert(idx, x)` for `idx ≤ l.length`. -/
def insertAt (idx : Nat) (a : α) (l : List α) : List α :=
  l.take idx ++ a :: l.drop idx

/-- Rust `args.join(" ")`. -/
def joinSpace : List (List Char) → List Char
  | [] => []
  | [x] => x
  | x :: rest => x ++ ' ' :: joinSpace rest

/-- The text appended to the script for one input: the body of the
`for input in inputs` loop of `write_job_script`. -/
def write_job_line (script input_flag : List Char) (script_args : List (List Char))
    (input : List Char) : List Char :=
  let script_q := shell_quote script
  let input_flag_q := shell_quote input_flag
  let script_args_q := script_args.map shell_quote
  let template_tokens := parse_template_tokens input_flag
  let input_q := shell_quote input
  match parse_positional_slot input_flag with
  | some slot =>
      let args := insertAt (min (slot - 1) script_args_q.length) input_q script_args_q
      if args = [] then chars "bash " ++ script_q ++ chars "\n"
      else chars "bash " ++ script_q ++ chars " " ++ joinSpace args ++ chars "\n"
  | none =>
      if template_tokens.any containsD1 then
        let args := template_tokens.map (fun t => shell_quote (replaceD1 input t)) ++ script_args_q
        chars "bash " ++ script_q ++ chars " " ++ joinSpace args ++ chars "\n"
      else if script_args_q = [] then
        chars "bash " ++ script_q ++ chars " " ++ input_flag_q ++ chars " " ++ input_q ++ chars "\n"
      else
        chars "bash " ++ script_q ++ chars " " ++ input_flag_q ++ chars " " ++ input_q ++
          chars " " ++ joinSpace script_args_q ++ chars "\n"

/-- The full text written by `write_job_script`: shebang, `set -euo pipefail`,
a blank line, then one invocation line per input. -/
def write_job_script (script input_flag : List Char) (inputs : List (List Char))
    (script_args : List (List Char)) : List Char :=
  chars "#!/usr/bin/env bash\n" ++ chars "set -euo pipefail\n\n" ++
    (inputs.map (write_job_line script input_flag script_args)).flatten

/-! ## Partitioner (`split_evenly`, lib.rs 112-124) -/

/-- The slice sizes produced by the `for i in 0..groups` loop of
`split_evenly`: `base + 1` for the first `remainder` groups, `base` after. -/
def groupSizes (n k : Nat) : List Nat :=
  (List.range k).map (fun i => if i < n % k then n / k + 1 else n / k)

/-- Cut a list into consecutive chunks of the given sizes (the
`&items[start..end]` slices of `split_evenly`). -/
def takeSizes : List Nat → List α → List (List α)
  | [], _ => []
  | sz :: rest, l => l.take sz :: takeSizes rest (l.drop sz)

/-- `split_evenly` from lib.rs. -/
def split_evenly (items : List α) (k : Nat) : List (List α) :=
  takeSizes (groupSizes items.length k) items

/-! ## Cleanup pass (`cleanup_old_batch_scripts`, lib.rs 126-142) -/

/-- A directory entry: its file name and whether `path.is_file()` holds. -/
structure DirEntry where
  name : List Char
  isFile : Bool
deriving DecidableEq, Repr

/-- `cleanup_old_batch_scripts` modelled on the directory listing: the
entries that remain after deleting every regular file whose name starts
with the job-name prefix plus a dash and ends with `.batch.sh`. -/
def cleanup_old_batch_scripts (job_name_pre : List Char) (entries : List DirEntry) :
    List DirEntry :=
  entries.filter fun e =>
    !(e.isFile && (job_name_pre ++ chars "-").isPrefixOf e.name &&
      (chars ".batch.sh").isSuffixOf e.name)

/-! ## UTF-8 lossy decoding (`String::from_utf8_lossy`)

`submit_job` pushes child output through `String::from_utf8_lossy`, which
keeps maximal valid UTF-8 chunks verbatim and replaces each maximal invalid
subpart with U+FFFD.  `utf8LossyBytes` gives the bytes that `print!` then
writes; `utf8LossyChars` gives the character string (used for `stderr`). -/

/-- A UTF-8 continuation byte. -/
def isCont (b : Nat) : Bool := 0x80 ≤ b && b ≤ 0xBF

/-- Allowed first continuation byte after a three-byte lead, per the Rust
validation table (lead 0xE0 needs 0xA0-0xBF, lead 0xED needs 0x80-0x9F). -/
def cont3ok (b b1 : Nat) : Bool :=
  if b = 0xE0 then 0xA0 ≤ b1 && b1 ≤ 0xBF
  else if b = 0xED then 0x80 ≤ b1 && b1 ≤ 0x9F
  else isCont b1

/-- Allowed first continuation byte after a four-byte lead (lead 0xF0 needs
0x90-0xBF, lead 0xF4 needs 0x80-0x8F). -/
def cont4ok (b b1 : Nat) : Bool :=
  if b = 0xF0 then 0x90 ≤ b1 && b1 ≤ 0xBF
  else if b = 0xF4 then 0x80 ≤ b1 && b1 ≤ 0x8F
  else isCont b1

/-- UTF-8 encoding of the replacement character U+FFFD. -/
def replB : List Nat := [0xEF, 0xBF, 0xBD]

/-- Bytes written when a lossily decoded byte string is printed: valid
sequences pass through verbatim, each maximal invalid subpart becomes the
three bytes of U+FFFD, and an incomplete final sequence becomes one U+FFFD. -/
def utf8LossyBytes : List Nat → List Nat
  | [] => []
  | b :: rest =>
      if b ≤ 0x7F then b :: utf8LossyBytes rest
      else if 0xC2 ≤ b ∧ b ≤ 0xDF then
        match rest with
        | [] => replB
        | b1 :: r1 =>
            if isCont b1 then b :: b1 :: utf8LossyBytes r1
            else replB ++ utf8LossyBytes (b1 :: r1)
      else if 0xE0 ≤ b ∧ b ≤ 0xEF then
        match rest with
        | [] => replB
        | b1 :: r1 =>
            if cont3ok b b1 then
              match r1 with
              | [] => replB
              | b2 :: r2 =>
                  if isCont b2 then b :: b1 :: b2 :: utf8LossyBytes r2
                  else replB ++ utf8LossyBytes (b2 :: r2)
            else replB ++ utf8LossyBytes (b1 :: r1)
      else if 0xF0 ≤ b ∧ b ≤ 0xF4 then
        match rest with
        | [] => replB
        | b1 :: r1 =>
            if cont4ok b b1 then
              match r1 with
              | [] => replB
              | b2 :: r2 =>
                  if isCont b2 then
                    match r2 with
                    | [] => replB
                    | b3 :: r3 =>
                        if isCont b3 then b :: b1 :: b2 :: b3 :: utf8LossyBytes r3
                        else replB ++ utf8LossyBytes (b3 :: r3)
                  else replB ++ utf8LossyBytes (b2 :: r2)
            else replB ++ utf8LossyBytes (b1 :: r1)
      else replB ++ utf8LossyBytes rest
termination_by l => l.length
decreasing_by all_goals simp_wf <;> omega

/-- A byte string is valid UTF-8 (mirrors the Rust validation loop). -/
def validUtf8 : List Nat → Bool
  | [] => true
  | b :: rest =>
      if b ≤ 0x7F then validUtf8 rest
      else if 0xC2 ≤ b ∧ b ≤ 0xDF then
        match rest with
        | [] => false
        | b1 :: r1 => isCont b1 && validUtf8 r1
      else if 0xE0 ≤ b ∧ b ≤ 0xEF then
        match rest with
        | [] => false
        | b1 :: r1 =>
            cont3ok b b1 &&
              match r1 with
              | [] => false
              | b2 :: r2 => isCont b2 && validUtf8 r2
      else if 0xF0 ≤ b ∧ b ≤ 0xF4 then
        match rest with
        | [] => false
        | b1 :: r1 =>
            cont4ok b b1 &&
              match r1 with
              | [] => false
              | b2 :: r2 =>
                  isCont b2 &&
                    match r2 with
                    | [] => false
                    | b3 :: r3 => isCont b3 && validUtf8 r3
      else false

/-- `String::from_utf8_lossy` as a character string. -/
def utf8LossyChars : List Nat → List Char
  | [] => []
  | b :: rest =>
      if b ≤ 0x7F then Char.ofNat b :: utf8LossyChars rest
      else if 0xC2 ≤ b ∧ b ≤ 0xDF then
        match rest with
        | [] => [Char.ofNat 0xFFFD]
        | b1 :: r1 =>
            if isCont b1 then Char.ofNat ((b - 0xC0) * 0x40 + (b1 - 0x80)) :: utf8LossyChars r1
            else Char.ofNat 0xFFFD :: utf8LossyChars (b1 :: r1)
      else if 0xE0 ≤ b ∧ b ≤ 0xEF then
        match rest with
        | [] => [Char.ofNat 0xFFFD]
        | b1 :: r1 =>
            if cont3ok b b1 then
              match r1 with
              | [] => [Char.ofNat 0xFFFD]
              | b2 :: r2 =>
                  if isCont b2 then
                    Char.ofNat ((b - 0xE0) * 0x1000 + (b1 - 0x80) * 0x40 + (b2 - 0x80)) ::
                      utf8LossyChars r2
                  else Char.ofNat 0xFFFD :: utf8LossyChars (b2 :: r2)
            else Char.ofNat 0xFFFD :: utf8LossyChars (b1 :: r1)
      else if 0xF0 ≤ b ∧ b ≤ 0xF4 then
        match rest with
        | [] => [Char.ofNat 0xFFFD]
        | b1 :: r1 =>
            if cont4ok b b1 then
              match r1 with
              | [] => [Char.ofNat 0xFFFD]
              | b2 :: r2 =>
                  if isCont b2 then
                    match r2 with
                    | [] => [Char.ofNat 0xFFFD]
                    | b3 :: r3 =>
                        if isCont b3 then
                          Char.ofNat ((b - 0xF0) * 0x40000 + (b1 - 0x80) * 0x1000 +
                              (b2 - 0x80) * 0x40 + (b3 - 0x80)) :: utf8LossyChars r3
                        else Char.ofNat 0xFFFD :: utf8LossyChars (b3 :: r3)
                  else Char.ofNat 0xFFFD :: utf8LossyChars (b2 :: r2)
            else Char.ofNat 0xFFFD :: utf8LossyChars (b1 :: r1)
      else Char.ofNat 0xFFFD :: utf8LossyChars rest
termination_by l => l.length
decreasing_by all_goals simp_wf <;> omega

/-! ## Submission driver (`submit_job`, lib.rs 243-271) -/

/-- Rust `char::is_whitespace`: the Unicode White_Space code points. -/
def isRustWs (c : Char) : Bool :=
  c.toNat ∈ [0x09, 0x0A, 0x0B, 0x0C, 0x0D, 0x20, 0x85, 0xA0, 0x1680,
    0x2000, 0x2001, 0x2002, 0x2003, 0x2004, 0x2005, 0x2006, 0x2007, 0x2008,
    0x2009, 0x200A, 0x2028, 0x2029, 0x202F, 0x205F, 0x3000]

/-- Rust `str::trim`. -/
def trimStr (s : List Char) : List Char :=
  ((s.dropWhile isRustWs).reverse.dropWhile isRustWs).reverse

/-- Result of `Command::output()`: exit status (0 on success) and the
captured byte streams. -/
structure ProcOut where
  status : Nat
  stdout : List Nat
  stderr : List Nat

/-- Abstract outcome of `submit_job`: the parse failure, an I/O failure of
the spawn itself, a non-zero child exit (carrying program, script path and
trimmed stderr), or success carrying the bytes forwarded to stdout. -/
inductive SubmitOutcome where
  | submitParse
  | ioErr
  | submitFailed (program : List Char) (script : List Char) (stderrTrim : List Char)
  | success (forwarded : List Nat)
deriving DecidableEq, Repr

/-- `submit_job` from lib.rs, with the `fork/exec` abstracted by `spawn`:
tokenize the submit command, spawn the first token with the remaining
tokens plus the script path, and report the outcome. -/
def submit_job (submit job_script : List Char)
    (spawn : List Char → List (List Char) → Option ProcOut) : SubmitOutcome :=
  match shlex_split submit with
  | none => .submitParse
  | some [] => .submitParse
  | some (program :: args) =>
      match spawn program (args ++ [job_script]) with
      | none => .ioErr
      | some out =>
          if out.status = 0 then .success (utf8LossyBytes out.stdout)
          else .submitFailed program job_script (trimStr (utf8LossyChars out.stderr))

/-! ## Spec-side convention predicates (for claim C3)

`specDollarN` follows the claim's words literally; the amended predicates
describe what the code actually accepts. -/

/-- Claim wording for a positional slot: the string matches a dollar sign
followed by the decimal digits of some `N ≥ 1`, nothing else. -/
def specDollarN (s : List Char) : Bool :=
  match s with
  | '$' :: d => !d.isEmpty && d.all Char.isDigit && decide (1 ≤ digitsVal d)
  | _ => false

/-- Amended positional-slot predicate: a dollar sign, an optional plus sign,
then one or more ASCII digits denoting a value `v` with `1 ≤ v ≤ USIZE_MAX`. -/
def slotSpecAmended (s : List Char) (v : Nat) : Prop :=
  ∃ d : List Char, (s = '$' :: d ∨ s = '$' :: '+' :: d) ∧ d ≠ [] ∧
    (∀ c ∈ d, c.isDigit = true) ∧ digitsVal d = v ∧ 1 ≤ v ∧ v ≤ USIZE_MAX

/-- Amended template predicate: either shlex tokenization succeeds and some
token contains the substring dollar-one, or tokenization fails and the whole
string (used as the single fallback token) contains it. -/
def templateSpecAmended (s : List Char) : Prop :=
  (∃ toks, shlex_split s = some toks ∧ ∃ t ∈ toks, containsD1 t = true) ∨
  (shlex_split s = none ∧ containsD1 s = true)

/-! ## Helper lemmas on the scanner and the quoter -/

theorem safe_ne {c : Char} (d : Char) (h : isSafeChar c = true) (hd : isSafeChar d = false) :
    c ≠ d := by
  intro he
  rw [he, hd] at h
  exact Bool.false_ne_true h

theorem sxStep_safe {c : Char} (h : isSafeChar c = true) (acc : List Char) (iw : Bool)
    (ws : List (List Char)) :
    sxStep ⟨.normal, acc, iw, ws⟩ c = ⟨.normal, acc ++ [c], true, ws⟩ := by
  have h1 : c ≠ ' ' := safe_ne _ h (by decide)
  have h2 : c ≠ '\t' := safe_ne _ h (by decide)
  have h3 : c ≠ '\n' := safe_ne _ h (by decide)
  have h4 : c ≠ '#' := safe_ne _ h (by decide)
  have h5 : c ≠ '\'' := safe_ne _ h (by decide)
  have h6 : c ≠ '"' := safe_ne _ h (by decide)
  have h7 : c ≠ '\\' := safe_ne _ h (by decide)
  simp [sxStep, h1, h2, h3, h4, h5, h6, h7]

theorem foldl_sxStep_safe (s : List Char) (h : ∀ c ∈ s, isSafeChar c = true) (acc : List Char)
    (ws : List (List Char)) :
    List.foldl sxStep ⟨.normal, acc, true, ws⟩ s = ⟨.normal, acc ++ s, true, ws⟩ := by
  induction s generalizing acc with
  | nil => simp
  | cons c t ih =>
      rw [List.foldl_cons, sxStep_safe (h c (by simp)) acc true ws,
        ih (fun d hd => h d (by simp [hd]))]
      simp

theorem foldl_sxStep_quoteEscape (s : List Char) (acc : List Char) (ws : List (List Char)) :
    List.foldl sxStep ⟨.single, acc, true, ws⟩ (quoteEscape s) = ⟨.single, acc ++ s, true, ws⟩ := by
  induction s generalizing acc with
  | nil => simp [quoteEscape]
  | cons c t ih =>
      by_cases hc : c = '\''
      · subst hc
        show List.foldl sxStep _ ('\'' :: '\\' :: '\'' :: '\'' :: quoteEscape t) = _
        have s1 : sxStep ⟨.single, acc, true, ws⟩ '\'' = ⟨.normal, acc, true, ws⟩ := rfl
        have s2 : sxStep ⟨.normal, acc, true, ws⟩ '\\' = ⟨.esc, acc, true, ws⟩ := rfl
        have s3 : sxStep ⟨.esc, acc, true, ws⟩ '\'' = ⟨.normal, acc ++ ['\''], true, ws⟩ := rfl
        have s4 : sxStep ⟨.normal, acc ++ ['\''], true, ws⟩ '\'' =
            ⟨.single, acc ++ ['\''], true, ws⟩ := rfl
        rw [List.foldl_cons, s1, List.foldl_cons, s2, List.foldl_cons, s3, List.foldl_cons, s4,
          ih (acc ++ ['\''])]
        simp
      · have hstep : sxStep ⟨.single, acc, true, ws⟩ c = ⟨.single, acc ++ [c], true, ws⟩ := by
          simp [sxStep, hc]
        rw [show quoteEscape (c :: t) = c :: quoteEscape t from by simp [quoteEscape, hc],
          List.foldl_cons, hstep, ih (acc ++ [c])]
        simp

/-- C1: for every string without NUL, shlex parsing of `shell_quote s`
yields exactly one word equal to `s`; the empty string is quoted as two
single quotes, all-safe strings are returned unchanged, and any other
string is wrapped in single quotes with embedded quotes escaped. -/
theorem shell_quote_roundtrip (s : List Char) (hnul : Char.ofNat 0 ∉ s) :
    shlex_split (shell_quote s) = some [s] ∧
    (s = [] → shell_quote s = chars "''") ∧
    (s ≠ [] → s.all isSafeChar = true → shell_quote s = s) ∧
    (s ≠ [] → s.all isSafeChar = false → shell_quote s = '\'' :: (quoteEscape s ++ chars "'")) := by
  refine ⟨?_, ?_, ?_, ?_⟩
  · by_cases hs : s = []
    · subst hs; decide
    · by_cases hall : s.all isSafeChar
      · rw [shell_quote, if_neg hs, if_pos hall]
        obtain ⟨c, t, rfl⟩ := List.exists_cons_of_ne_nil hs
        have hmem : ∀ d ∈ c :: t, isSafeChar d = true := by
          simpa [List.all_eq_true] using hall
        have h0 : sxStep sxInit c = ⟨.normal, [c], true, []⟩ := by
          have := sxStep_safe (hmem c (by simp)) [] false []
          simpa [sxInit] using this
        rw [shlex_split, List.foldl_cons, h0,
          foldl_sxStep_safe t (fun d hd => hmem d (by simp [hd])) [c] []]
        simp [sxFinish]
      · rw [shell_quote, if_neg hs, if_neg hall]
        have h0 : sxStep sxInit '\'' = ⟨.single, [], true, []⟩ := rfl
        have hfin : sxStep ⟨.single, s, true, []⟩ '\'' = ⟨.normal, s, true, []⟩ := rfl
        rw [shlex_split, List.foldl_cons, h0]
        show sxFinish (List.foldl sxStep _ (quoteEscape s ++ chars "'")) = _
        rw [List.foldl_append, foldl_sxStep_quoteEscape s [] []]
        simp only [List.nil_append]
        show sxFinish (List.foldl sxStep ⟨.single, s, true, []⟩ ['\'']) = _
        rw [List.foldl_cons, hfin]
        simp [sxFinish]
  · intro hs; simp [shell_quote, hs]
  · intro hs hall; simp [shell_quote, hs, hall]
  · intro hs hall; simp [shell_quote, hs, hall]

/-- Witness for C1 at the concrete string with an embedded quote. -/
theorem shell_quote_roundtrip_witness :
    Char.ofNat 0 ∉ chars "a'b" ∧ shlex_split (shell_quote (chars "a'b")) = some [chars "a'b"] :=
  ⟨by decide, (shell_quote_roundtrip (chars "a'b") (by decide)).1⟩

/-! ## Helper lemmas on the partitioner -/

theorem sum_ifSizes (k base r : Nat) :
    ((List.range k).map (fun i => if i < r then base + 1 else base)).sum = k * base + min r k := by
  induction k with
  | zero => simp
  | succ k ih =>
      rw [List.range_succ, List.map_append, List.sum_append, ih]
      simp only [List.map_cons, List.map_nil, List.sum_cons, List.sum_nil]
      rw [Nat.succ_mul]
      split_ifs with h <;> omega

theorem groupSizes_sum (n k : Nat) (hk : 0 < k) : (groupSizes n k).sum = n := by
  rw [groupSizes, sum_ifSizes]
  have h1 : n % k < k := Nat.mod_lt _ hk
  have h2 : min (n % k) k = n % k := by omega
  rw [h2]
  exact Nat.div_add_mod n k

theorem groupSizes_length (n k : Nat) : (groupSizes n k).length = k := by
  simp [groupSizes]

theorem takeSizes_length (sizes : List Nat) (l : List α) :
    (takeSizes sizes l).length = sizes.length := by
  induction sizes generalizing l with
  | nil => simp [takeSizes]
  | cons sz rest ih => simp [takeSizes, ih]

theorem takeSizes_flatten (sizes : List Nat) (l : List α) (h : sizes.sum = l.length) :
    (takeSizes sizes l).flatten = l := by
  induction sizes generalizing l with
  | nil =>
      simp only [List.sum_nil] at h
      simp [takeSizes, (List.length_eq_zero.mp h.symm).symm]
  | cons sz rest ih =>
      simp only [List.sum_cons] at h
      rw [takeSizes, List.flatten_cons, ih (l.drop sz) (by simp; omega)]
      exact List.take_append_drop sz l

theorem takeSizes_map_length (sizes : List Nat) (l : List α) (h : sizes.sum ≤ l.length) :
    (takeSizes sizes l).map List.length = sizes := by
  induction sizes generalizing l with
  | nil => simp [takeSizes]
  | cons sz rest ih =>
      simp only [List.sum_cons] at h
      rw [takeSizes, List.map_cons, List.length_take,
        ih (l.drop sz) (by simp; omega)]
      congr 1
      omega

theorem groupSizes_get (n k i : Nat) (h : i < (groupSizes n k).length) :
    (groupSizes n k).get ⟨i, h⟩ = if i < n % k then n / k + 1 else n / k := by
  have hik : i < k := by simpa [groupSizes_length] using h
  simp [groupSizes, List.get_eq_getElem, List.getElem_map, List.getElem_range]

theorem takeSizes_get_length (sizes : List Nat) (l : List α) (h : sizes.sum ≤ l.length) :
    ∀ i (hi : i < (takeSizes sizes l).length) (hi2 : i < sizes.length),
      ((takeSizes sizes l).get ⟨i, hi⟩).length = sizes.get ⟨i, hi2⟩ := by
  induction sizes generalizing l with
  | nil => intro i hi hi2; exact absurd hi2 (by simp)
  | cons sz rest ih =>
      intro i hi hi2
      cases i with
      | zero =>
          simp only [takeSizes, List.get_eq_getElem, List.getElem_cons_zero, List.length_take]
          simp only [List.sum_cons] at h
          omega
      | succ j =>
          have hrec := ih (l.drop sz) (by simp only [List.sum_cons] at h; simp; omega) j
            (by simpa [takeSizes] using hi) (by simpa using hi2)
          simpa [takeSizes, List.get_eq_getElem, List.getElem_cons_succ] using hrec

theorem split_evenly_get_length (items : List α) (k i : Nat) (hk : 0 < k)
    (h : i < (split_evenly items k).length) :
    ((split_evenly items k).get ⟨i, h⟩).length =
      if i < items.length % k then items.length / k + 1 else items.length / k := by
  have hsum : (groupSizes items.length k).sum = items.length := groupSizes_sum _ _ hk
  have hi2 : i < (groupSizes items.length k).length := by
    have h2 := h
    rw [split_evenly, takeSizes_length] at h2
    exact h2
  rw [show ((split_evenly items k).get ⟨i, h⟩).length =
        (groupSizes items.length k).get ⟨i, hi2⟩ from
      takeSizes_get_length _ items (le_of_eq hsum) i h hi2,
    groupSizes_get]

theorem ceil_div_of_pos_mod (n k : Nat) (hk : 0 < k) (hr : 0 < n % k) :
    (n + k - 1) / k = n / k + 1 := by
  have hqr : k * (n / k) + n % k = n := Nat.div_add_mod n k
  have hrk : n % k < k := Nat.mod_lt _ hk
  have hsplit : n + k - 1 = k * (n / k + 1) + (n % k - 1) := by
    have hexp : k * (n / k + 1) = k * (n / k) + k := by ring
    rw [hexp]
    generalize k * (n / k) = m at hqr ⊢
    omega
  have h2 : (n % k - 1) / k = 0 := Nat.div_eq_of_lt (by omega)
  rw [hsplit, Nat.mul_add_div hk, h2]

/-- C2: `run` partitions the `n ≥ 1` sorted inputs into `min(k, n)` groups
via `split_evenly`; the groups concatenate back to the input list, the first
`n mod k` groups have the ceiling size, the remaining groups the floor size,
and any two group sizes differ by at most 1. -/
theorem split_evenly_balanced {α : Type} (items : List α) (k : Nat) (hk : 1 ≤ k)
    (hn : 1 ≤ items.length) :
    (split_evenly items (min k items.length)).flatten = items ∧
    (split_evenly items (min k items.length)).length = min k items.length ∧
    (∀ i (h : i < (split_evenly items (min k items.length)).length),
      i < items.length % k →
      ((split_evenly items (min k items.length)).get ⟨i, h⟩).length =
        (items.length + k - 1) / k) ∧
    (∀ i (h : i < (split_evenly items (min k items.length)).length),
      items.length % k ≤ i →
      ((split_evenly items (min k items.length)).get ⟨i, h⟩).length = items.length / k) ∧
    (∀ i j (hi : i < (split_evenly items (min k items.length)).length)
      (hj : j < (split_evenly items (min k items.length)).length),
      ((split_evenly items (min k items.length)).get ⟨i, hi⟩).length ≤
        ((split_evenly items (min k items.length)).get ⟨j, hj⟩).length + 1) := by
  set n := items.length with hne0
  set gs := split_evenly items (min k n) with hgs
  have hne : n = items.length := rfl
  have hk' : 0 < min k n := by omega
  have hlen : gs.length = min k n := by
    show (split_evenly items (min k n)).length = min k n
    rw [split_evenly, takeSizes_length, groupSizes_length]
  refine ⟨?_, hlen, ?_, ?_, ?_⟩
  · exact takeSizes_flatten _ _ (groupSizes_sum n (min k n) hk')
  · intro i h hi
    rw [split_evenly_get_length items (min k n) i hk' h, ← hne]
    rcases Nat.lt_or_ge n k with hnk | hnk
    · -- fewer items than requested groups: every group has one element
      have hmin : min k n = n := by omega
      have hmod : n % n = 0 := Nat.mod_self n
      have hdiv : n / n = 1 := Nat.div_self (by omega)
      rw [hmin, if_neg (by omega), hdiv]
      symm
      exact Nat.div_eq_of_lt_le (by omega) (by omega)
    · have hmin : min k n = k := by omega
      have hmodpos : 0 < n % k := by omega
      rw [hmin, if_pos hi, ceil_div_of_pos_mod n k (by omega) hmodpos]
  · intro i h hi
    rw [split_evenly_get_length items (min k n) i hk' h, ← hne]
    rcases Nat.lt_or_ge n k with hnk | hnk
    · -- vacuous: i < gs.length = n while n % k = n ≤ i
      have hmod : n % k = n := Nat.mod_eq_of_lt hnk
      have hilt : i < min k n := by rw [← hlen]; exact h
      omega
    · have hmin : min k n = k := by omega
      rw [hmin, if_neg (by omega)]
  · intro i j hi hj
    rw [split_evenly_get_length items (min k n) i hk' hi,
      split_evenly_get_length items (min k n) j hk' hj]
    split_ifs <;> omega

/-- Witness for C2 on 7 items split into 3 groups. -/
theorem split_evenly_balanced_witness :
    1 ≤ 3 ∧ 1 ≤ ([0, 1, 2, 3, 4, 5, 6] : List Nat).length ∧
    ((split_evenly ([0, 1, 2, 3, 4, 5, 6] : List Nat)
        (min 3 ([0, 1, 2, 3, 4, 5, 6] : List Nat).length)).flatten = [0, 1, 2, 3, 4, 5, 6] ∧
     (split_evenly ([0, 1, 2, 3, 4, 5, 6] : List Nat)
        (min 3 ([0, 1, 2, 3, 4, 5, 6] : List Nat).length)).length =
       min 3 ([0, 1, 2, 3, 4, 5, 6] : List Nat).length ∧
     (∀ i (h : i < (split_evenly ([0, 1, 2, 3, 4, 5, 6] : List Nat)
          (min 3 ([0, 1, 2, 3, 4, 5, 6] : List Nat).length)).length),
       i < ([0, 1, 2, 3, 4, 5, 6] : List Nat).length % 3 →
       ((split_evenly ([0, 1, 2, 3, 4, 5, 6] : List Nat)
          (min 3 ([0, 1, 2, 3, 4, 5, 6] : List Nat).length)).get ⟨i, h⟩).length =
         (([0, 1, 2, 3, 4, 5, 6] : List Nat).length + 3 - 1) / 3) ∧
     (∀ i (h : i < (split_evenly ([0, 1, 2, 3, 4, 5, 6] : List Nat)
          (min 3 ([0, 1, 2, 3, 4, 5, 6] : List Nat).length)).length),
       ([0, 1, 2, 3, 4, 5, 6] : List Nat).length % 3 ≤ i →
       ((split_evenly ([0, 1, 2, 3, 4, 5, 6] : List Nat)
          (min 3 ([0, 1, 2, 3, 4, 5, 6] : List Nat).length)).get ⟨i, h⟩).length =
         ([0, 1, 2, 3, 4, 5, 6] : List Nat).length / 3) ∧
     (∀ i j (hi : i < (split_evenly ([0, 1, 2, 3, 4, 5, 6] : List Nat)
          (min 3 ([0, 1, 2, 3, 4, 5, 6] : List Nat).length)).length)
        (hj : j < (split_evenly ([0, 1, 2, 3, 4, 5, 6] : List Nat)
          (min 3 ([0, 1, 2, 3, 4, 5, 6] : List Nat).length)).length),
       ((split_evenly ([0, 1, 2, 3, 4, 5, 6] : List Nat)
          (min 3 ([0, 1, 2, 3, 4, 5, 6] : List Nat).length)).get ⟨i, hi⟩).length ≤
         ((split_evenly ([0, 1, 2, 3, 4, 5, 6] : List Nat)
          (min 3 ([0, 1, 2, 3, 4, 5, 6] : List Nat).length)).get ⟨j, hj⟩).length + 1)) :=
  ⟨by decide, by decide, split_evenly_balanced [0, 1, 2, 3, 4, 5, 6] 3 (by decide) (by decide)⟩

/-! ## Helper lemmas on convention classification -/

theorem parseUsize_run (d : List Char) (hne : d ≠ []) (hall : d.all Char.isDigit = true) :
    parseUsize d =
      (if digitsVal d ≤ USIZE_MAX then some (digitsVal d) else none) := by
  obtain ⟨c1, r1, rfl⟩ := List.exists_cons_of_ne_nil hne
  have hc1 : c1.isDigit = true := by
    have := List.all_eq_true.mp hall c1 (by simp)
    simpa using this
  have hplus : c1 ≠ '+' := by
    intro h2
    rw [h2] at hc1
    exact absurd hc1 (by decide)
  simp [parseUsize, hplus, hall]

theorem parseUsize_plus_run (d : List Char) (hne : d ≠ []) (hall : d.all Char.isDigit = true) :
    parseUsize ('+' :: d) =
      (if digitsVal d ≤ USIZE_MAX then some (digitsVal d) else none) := by
  simp [parseUsize, hne, hall]

theorem parseUsize_eq_some (s : List Char) (v : Nat) :
    parseUsize s = some v ↔
      ∃ d : List Char, (s = d ∨ s = '+' :: d) ∧ d ≠ [] ∧ (∀ c ∈ d, c.isDigit = true) ∧
        digitsVal d = v ∧ v ≤ USIZE_MAX := by
  constructor
  · intro h
    cases s with
    | nil => simp [parseUsize] at h
    | cons c rest =>
        by_cases hc : c = '+'
        · subst hc
          have hd : parseUsize ('+' :: rest) =
              (if rest = [] then none
               else if rest.all Char.isDigit then
                 (if digitsVal rest ≤ USIZE_MAX then some (digitsVal rest) else none)
               else none) := by
            simp [parseUsize]
          rw [hd] at h
          by_cases h1 : rest = []
          · rw [if_pos h1] at h; exact absurd h (by simp)
          · rw [if_neg h1] at h
            by_cases h2 : rest.all Char.isDigit
            · rw [if_pos h2] at h
              by_cases h3 : digitsVal rest ≤ USIZE_MAX
              · rw [if_pos h3] at h
                injection h with h4
                have hdig2 : ∀ e ∈ rest, e.isDigit = true := by
                  intro e hem
                  simpa using List.all_eq_true.mp h2 e hem
                exact ⟨rest, Or.inr rfl, h1, hdig2, h4, h4 ▸ h3⟩
              · rw [if_neg h3] at h; exact absurd h (by simp)
            · rw [if_neg h2] at h; exact absurd h (by simp)
        · have hd : parseUsize (c :: rest) =
              (if (c :: rest).all Char.isDigit then
                 (if digitsVal (c :: rest) ≤ USIZE_MAX then some (digitsVal (c :: rest)) else none)
               else none) := by
            simp [parseUsize, hc]
          rw [hd] at h
          by_cases h2 : (c :: rest).all Char.isDigit
          · rw [if_pos h2] at h
            by_cases h3 : digitsVal (c :: rest) ≤ USIZE_MAX
            · rw [if_pos h3] at h
              injection h with h4
              have hdig2 : ∀ e ∈ c :: rest, e.isDigit = true := by
                intro e hem
                simpa using List.all_eq_true.mp h2 e hem
              exact ⟨c :: rest, Or.inl rfl, by simp, hdig2, h4, h4 ▸ h3⟩
            · rw [if_neg h3] at h; exact absurd h (by simp)
          · rw [if_neg h2] at h; exact absurd h (by simp)
  · rintro ⟨d, hd, hne, hdig, hval, hle⟩
    have hall : d.all Char.isDigit = true :=
      List.all_eq_true.mpr fun c hcm => by simp [hdig c hcm]
    rcases hd with rfl | rfl
    · rw [parseUsize_run _ hne hall, hval, if_pos hle]
    · rw [parseUsize_plus_run _ hne hall, hval, if_pos hle]

theorem parse_positional_slot_dollar (rest : List Char) :
    parse_positional_slot ('$' :: rest) =
      (match parseUsize rest with
       | none => none
       | some idx => if idx = 0 then none else some idx) := by
  simp [parse_positional_slot]

theorem parse_positional_slot_iff (s : List Char) (v : Nat) :
    parse_positional_slot s = some v ↔ slotSpecAmended s v := by
  constructor
  · intro h
    cases s with
    | nil => simp [parse_positional_slot] at h
    | cons c rest =>
        by_cases hc : c = '$'
        · subst hc
          rw [parse_positional_slot_dollar] at h
          rcases hps : parseUsize rest with _ | idx
          · rw [hps] at h; exact absurd h (by simp)
          · rw [hps] at h
            have h2 : (if idx = 0 then none else some idx : Option Nat) = some v := h
            by_cases h0 : idx = 0
            · rw [if_pos h0] at h2; exact absurd h2 (by simp)
            · rw [if_neg h0] at h2
              injection h2 with h4
              subst h4
              obtain ⟨d, hd, hne, hdig, hval, hle⟩ := (parseUsize_eq_some rest idx).mp hps
              refine ⟨d, ?_, hne, hdig, hval, by omega, hle⟩
              rcases hd with rfl | rfl
              · exact Or.inl rfl
              · exact Or.inr rfl
        · simp [parse_positional_slot, hc] at h
  · rintro ⟨d, hd, hne, hdig, hval, hge, hle⟩
    have hvne : v ≠ 0 := by omega
    rcases hd with rfl | rfl
    · have hps2 : parseUsize d = some v :=
        (parseUsize_eq_some d v).mpr ⟨d, Or.inl rfl, hne, hdig, hval, hle⟩
      rw [parse_positional_slot_dollar, hps2]
      simp [hvne]
    · have hps2 : parseUsize ('+' :: d) = some v :=
        (parseUsize_eq_some ('+' :: d) v).mpr ⟨d, Or.inr rfl, hne, hdig, hval, hle⟩
      rw [parse_positional_slot_dollar, hps2]
      simp [hvne]

theorem parse_positional_slot_none_iff (s : List Char) :
    parse_positional_slot s = none ↔ ∀ v, ¬ slotSpecAmended s v := by
  constructor
  · intro h v hv
    have h2 := (parse_positional_slot_iff s v).mpr hv
    rw [h] at h2
    exact absurd h2 (by simp)
  · intro h
    rcases hp : parse_positional_slot s with _ | v
    · rfl
    · exact absurd ((parse_positional_slot_iff s v).mp hp) (h v)

theorem hasTemplate_iff (s : List Char) : hasTemplate s = true ↔ templateSpecAmended s := by
  rw [hasTemplate, parse_template_tokens, templateSpecAmended]
  rcases hsp : shlex_split s with _ | toks
  · simp [List.any_eq_true]
  · simp [List.any_eq_true]

/-- C3 counterexample: the code classifies the string dollar-plus-two as
positional slot 2 (Rust `usize` parsing accepts a leading plus sign), while
the claim's dollar-N pattern rejects it; and the untokenizable string
quote-dollar-one is classified as a template via the whole-string fallback
even though shlex tokenization fails on it. -/
theorem classify_claim_counterexample :
    classify (chars "$+2") = Convention.slot 2 ∧
    specDollarN (chars "$+2") = false ∧
    classify (chars "'$1") = Convention.template ∧
    shlex_split (chars "'$1") = none := by
  refine ⟨by decide, by decide, by decide, by decide⟩

/-- C3 (amended): classification is total and disjoint with precedence slot,
template, flag.  A string is a positional slot exactly when it is a dollar
sign, an optional plus sign, and one or more digits denoting `1 ≤ v ≤`
`USIZE_MAX`; otherwise a template exactly when shlex tokenization succeeds
with a token containing the dollar-one substring, or fails and the whole
string contains it; anything else is a named flag.  In particular the
two-dollar string is a slot, a double-dash flag is a named flag, and an echo
template is a template. -/
theorem classify_total_disjoint :
    (∀ s v, classify s = Convention.slot v ↔ slotSpecAmended s v) ∧
    (∀ s, classify s = Convention.template ↔
      (∀ v, ¬ slotSpecAmended s v) ∧ templateSpecAmended s) ∧
    (∀ s, classify s = Convention.flag ↔
      (∀ v, ¬ slotSpecAmended s v) ∧ ¬ templateSpecAmended s) ∧
    classify (chars "$2") = Convention.slot 2 ∧
    classify (chars "--foo") = Convention.flag ∧
    classify (chars "echo $1 done") = Convention.template := by
  refine ⟨?_, ?_, ?_, by decide, by decide, by decide⟩
  · intro s v
    rw [classify]
    rcases hp : parse_positional_slot s with _ | m
    · constructor
      · intro h
        by_cases ht : hasTemplate s <;> simp [ht] at h
      · intro hv
        have h2 := (parse_positional_slot_iff s v).mpr hv
        rw [hp] at h2
        exact absurd h2 (by simp)
    · constructor
      · intro h
        have hm : m = v := by
          have h2 : Convention.slot m = Convention.slot v := h
          injection h2
        subst hm
        exact (parse_positional_slot_iff s m).mp hp
      · intro hv
        have h2 := (parse_positional_slot_iff s v).mpr hv
        rw [hp] at h2
        injection h2 with h3
        rw [h3]
  · intro s
    rw [classify]
    rcases hp : parse_positional_slot s with _ | m
    · have hnone : ∀ v, ¬ slotSpecAmended s v := (parse_positional_slot_none_iff s).mp hp
      by_cases ht : hasTemplate s
      · simp only [ht, if_true]
        exact ⟨fun _ => ⟨hnone, (hasTemplate_iff s).mp ht⟩, fun _ => by simp⟩
      · simp only [ht, if_false]
        constructor
        · intro h; exact absurd h (by simp)
        · intro ⟨_, htm⟩
          exact absurd ((hasTemplate_iff s).mpr htm) ht
    · constructor
      · intro h; exact absurd h (by simp)
      · intro ⟨hno, _⟩
        exact absurd ((parse_positional_slot_iff s m).mp hp) (hno m)
  · intro s
    rw [classify]
    rcases hp : parse_positional_slot s with _ | m
    · have hnone : ∀ v, ¬ slotSpecAmended s v := (parse_positional_slot_none_iff s).mp hp
      by_cases ht : hasTemplate s
      · simp only [ht, if_true]
        constructor
        · intro h; exact absurd h (by simp)
        · intro ⟨_, htm⟩
          exact absurd ((hasTemplate_iff s).mp ht) htm
      · simp only [ht, if_false]
        refine ⟨fun _ => ⟨hnone, fun htm => ?_⟩, fun _ => by simp⟩
        exact absurd ((hasTemplate_iff s).mpr htm) ht
    · constructor
      · intro h; exact absurd h (by simp)
      · intro ⟨hno, _⟩
        exact absurd ((parse_positional_slot_iff s m).mp hp) (hno m)

/-! ## Helper lemmas on invocation lines -/

theorem joinSpace_cons (x : List Char) (l : List (List Char)) (h : l ≠ []) :
    joinSpace (x :: l) = x ++ ' ' :: joinSpace l := by
  cases l with
  | nil => exact absurd rfl h
  | cons y rest => rfl

theorem insertAt_ne_nil (idx : Nat) (a : α) (l : List α) : insertAt idx a l ≠ [] := by
  simp [insertAt]

theorem write_job_line_slot (script input_flag : List Char) (script_args : List (List Char))
    (input : List Char) (m : Nat) (hslot : parse_positional_slot input_flag = some m) :
    write_job_line script input_flag script_args input =
      chars "bash " ++ shell_quote script ++ chars " " ++
        joinSpace (insertAt (min (m - 1) (script_args.map shell_quote).length)
          (shell_quote input) (script_args.map shell_quote)) ++ chars "\n" := by
  simp only [write_job_line, hslot]
  rw [if_neg (insertAt_ne_nil _ _ _)]

theorem write_job_line_template (script input_flag : List Char) (script_args : List (List Char))
    (input : List Char) (hslot : parse_positional_slot input_flag = none)
    (ht : (parse_template_tokens input_flag).any containsD1 = true) :
    write_job_line script input_flag script_args input =
      chars "bash " ++ shell_quote script ++ chars " " ++
        joinSpace ((parse_template_tokens input_flag).map
          (fun t => shell_quote (replaceD1 input t)) ++ script_args.map shell_quote) ++
        chars "\n" := by
  simp only [write_job_line, hslot, ht, if_true]

theorem write_job_line_flag (script input_flag : List Char) (script_args : List (List Char))
    (input : List Char) (hslot : parse_positional_slot input_flag = none)
    (ht : (parse_template_tokens input_flag).any containsD1 = false) :
    write_job_line script input_flag script_args input =
      chars "bash " ++ shell_quote script ++ chars " " ++
        joinSpace (shell_quote input_flag :: shell_quote input :: script_args.map shell_quote) ++
        chars "\n" := by
  have hsp : chars " " = [' '] := rfl
  simp only [write_job_line, hslot, ht, Bool.false_eq_true, if_false]
  by_cases hargs : script_args.map shell_quote = []
  · rw [if_pos hargs, hargs]
    simp [joinSpace, hsp, List.append_assoc]
  · rw [if_neg hargs]
    rw [joinSpace_cons _ _ (by simp), joinSpace_cons _ _ hargs]
    simp [hsp, List.append_assoc]

/-- C4: for a token-template convention (not a positional slot, shlex
tokenization succeeds, some token contains the dollar-one substring), the
line's argument vector substitutes every dollar-one occurrence in each token
with the raw input, shell-quotes each resulting token exactly once, and
appends the quoted trailing args after the expanded template tokens. -/
theorem template_formatting (script flag input : List Char) (args toks : List (List Char))
    (hslot : parse_positional_slot flag = none)
    (htok : shlex_split flag = some toks)
    (hd1 : toks.any containsD1 = true) :
    write_job_line script flag args input =
      chars "bash " ++ shell_quote script ++ chars " " ++
        joinSpace (toks.map (fun t => shell_quote (replaceD1 input t)) ++
          args.map shell_quote) ++ chars "\n" := by
  have htt : parse_template_tokens flag = toks := by
    rw [parse_template_tokens, htok]
  rw [write_job_line_template script flag args input hslot (by rw [htt]; exact hd1), htt]

/-- Witness for C4 on a concrete template convention. -/
theorem template_formatting_witness :
    parse_positional_slot (chars "-i $1") = none ∧
    shlex_split (chars "-i $1") = some [chars "-i", chars "$1"] ∧
    ([chars "-i", chars "$1"].any containsD1 = true) ∧
    write_job_line (chars "/w.sh") (chars "-i $1") [chars "a"] (chars "x y") =
      chars "bash " ++ shell_quote (chars "/w.sh") ++ chars " " ++
        joinSpace ([chars "-i", chars "$1"].map
          (fun t => shell_quote (replaceD1 (chars "x y") t)) ++
          [chars "a"].map shell_quote) ++ chars "\n" :=
  ⟨by decide, by decide, by decide,
    template_formatting (chars "/w.sh") (chars "-i $1") (chars "x y") [chars "a"]
      [chars "-i", chars "$1"] (by decide) (by decide) (by decide)⟩

/-- C5: for a positional-slot convention with slot `m`, the argument vector
is the quoted trailing args with the quoted input inserted at zero-based
index `min (m-1) |trailing args|`; with empty trailing args and slot 1 the
input is the sole argument. -/
theorem positional_formatting (script flag input : List Char) (args : List (List Char))
    (m : Nat) (hslot : parse_positional_slot flag = some m) :
    write_job_line script flag args input =
      chars "bash " ++ shell_quote script ++ chars " " ++
        joinSpace (insertAt (min (m - 1) args.length) (shell_quote input)
          (args.map shell_quote)) ++ chars "\n" ∧
    (args = [] →
      write_job_line script flag args input =
        chars "bash " ++ shell_quote script ++ chars " " ++ shell_quote input ++ chars "\n") := by
  constructor
  · rw [write_job_line_slot script flag args input m hslot, List.length_map]
  · rintro rfl
    rw [write_job_line_slot script flag [] input m hslot]
    simp [insertAt, joinSpace]

/-- Witness for C5 realizing spec scenario S2: slot 2 with trailing args
foo and bar and input x.dat yields foo, x.dat, bar. -/
theorem positional_formatting_witness :
    parse_positional_slot (chars "$2") = some 2 ∧
    (write_job_line (chars "/w.sh") (chars "$2") [chars "foo", chars "bar"] (chars "x.dat") =
        chars "bash " ++ shell_quote (chars "/w.sh") ++ chars " " ++
          joinSpace (insertAt (min (2 - 1) [chars "foo", chars "bar"].length)
            (shell_quote (chars "x.dat")) ([chars "foo", chars "bar"].map shell_quote)) ++
          chars "\n" ∧
      ([chars "foo", chars "bar"] = ([] : List (List Char)) →
        write_job_line (chars "/w.sh") (chars "$2") [chars "foo", chars "bar"] (chars "x.dat") =
          chars "bash " ++ shell_quote (chars "/w.sh") ++ chars " " ++
            shell_quote (chars "x.dat") ++ chars "\n")) ∧
    write_job_line (chars "/w.sh") (chars "$2") [chars "foo", chars "bar"] (chars "x.dat") =
      chars "bash /w.sh foo x.dat bar\n" :=
  ⟨by decide,
    positional_formatting (chars "/w.sh") (chars "$2") (chars "x.dat")
      [chars "foo", chars "bar"] 2 (by decide),
    by decide⟩

/-- C6 counterexample: with the convention of scenario S3 the template
tokenizes into four tokens, so the line for input `one` is
`bash /w.sh -i one -o out/one.done`, not the two quoted arguments the
claim expects. -/
theorem scenario_s3_counterexample :
    write_job_line (chars "/w.sh") (chars "-i $1 -o out/$1.done") [] (chars "one") =
      chars "bash /w.sh -i one -o out/one.done\n" ∧
    chars "bash /w.sh -i one -o out/one.done\n" ≠
      chars "bash /w.sh '-i one' '-o out/one.done'\n" := by
  exact ⟨by decide, by decide⟩

/-- C6 (amended): with convention `-i $1 -o out/$1.done`, no trailing args
and inputs `one` and `two`, the template splits into the four tokens `-i`,
dollar-one, `-o`, `out/` dollar-one `.done`; each token is substituted and
quoted on its own (all results are safe, so quoting changes nothing) and the
emitted line for input `one` is `bash <quoted-worker> -i one -o out/one.done`,
and analogously for `two`. -/
theorem scenario_s3_amended (script : List Char) :
    write_job_line script (chars "-i $1 -o out/$1.done") [] (chars "one") =
      chars "bash " ++ shell_quote script ++ chars " -i one -o out/one.done\n" ∧
    write_job_line script (chars "-i $1 -o out/$1.done") [] (chars "two") =
      chars "bash " ++ shell_quote script ++ chars " -i two -o out/two.done\n" := by
  constructor
  · rw [write_job_line_template script _ [] (chars "one") (by decide) (by decide)]
    simp only [List.append_assoc]
    congr 1
  · rw [write_job_line_template script _ [] (chars "two") (by decide) (by decide)]
    simp only [List.append_assoc]
    congr 1

/-- C7: every generated job script is exactly the shebang line, the
`set -euo pipefail` line, a blank line, then one line per input in group
order; every line is the literal `bash`, a space, the quoted worker path, a
space, and a space-joined non-empty argument vector, ending in a newline;
and for the named-flag convention that vector is the quoted flag, the
quoted input, then the quoted trailing args. -/
theorem write_job_script_format (script flag input : List Char)
    (inputs args : List (List Char))
    (hslot : parse_positional_slot flag = none)
    (ht : hasTemplate flag = false) :
    (∀ f2 : List Char,
      write_job_script script f2 inputs args =
        chars "#!/usr/bin/env bash\n" ++ chars "set -euo pipefail\n\n" ++
          (inputs.map (write_job_line script f2 args)).flatten) ∧
    (∀ f2 inp : List Char, ∃ vec : List (List Char), vec ≠ [] ∧
      write_job_line script f2 args inp =
        chars "bash " ++ shell_quote script ++ chars " " ++ joinSpace vec ++ chars "\n") ∧
    write_job_line script flag args input =
      chars "bash " ++ shell_quote script ++ chars " " ++
        joinSpace (shell_quote flag :: shell_quote input :: args.map shell_quote) ++
        chars "\n" := by
  refine ⟨fun f2 => rfl, ?_, ?_⟩
  · intro f2 inp
    rcases hp : parse_positional_slot f2 with _ | m
    · by_cases ht2 : (parse_template_tokens f2).any containsD1 = true
      · refine ⟨(parse_template_tokens f2).map (fun t => shell_quote (replaceD1 inp t)) ++
          args.map shell_quote, ?_, write_job_line_template script f2 args inp hp ht2⟩
        have htne : parse_template_tokens f2 ≠ [] := by
          intro he
          rw [he] at ht2
          exact absurd ht2 (by simp)
        simp [htne]
      · refine ⟨shell_quote f2 :: shell_quote inp :: args.map shell_quote, by simp,
          write_job_line_flag script f2 args inp hp (by simpa using ht2)⟩
    · exact ⟨insertAt (min (m - 1) (args.map shell_quote).length) (shell_quote inp)
        (args.map shell_quote), insertAt_ne_nil _ _ _,
        write_job_line_slot script f2 args inp m hp⟩
  · exact write_job_line_flag script flag args input hslot ht

/-- Witness for C7 realizing spec scenario S1 shapes. -/
theorem write_job_script_format_witness :
    parse_positional_slot (chars "--input") = none ∧
    hasTemplate (chars "--input") = false ∧
    ((∀ f2 : List Char,
      write_job_script (chars "/w.sh") f2 [chars "a.txt"] [] =
        chars "#!/usr/bin/env bash\n" ++ chars "set -euo pipefail\n\n" ++
          ([chars "a.txt"].map (write_job_line (chars "/w.sh") f2 [])).flatten) ∧
    (∀ f2 inp : List Char, ∃ vec : List (List Char), vec ≠ [] ∧
      write_job_line (chars "/w.sh") f2 [] inp =
        chars "bash " ++ shell_quote (chars "/w.sh") ++ chars " " ++ joinSpace vec ++
          chars "\n") ∧
    write_job_line (chars "/w.sh") (chars "--input") [] (chars "a.txt") =
      chars "bash " ++ shell_quote (chars "/w.sh") ++ chars " " ++
        joinSpace (shell_quote (chars "--input") :: shell_quote (chars "a.txt") ::
          ([] : List (List Char)).map shell_quote) ++ chars "\n") :=
  ⟨by decide, by decide,
    write_job_script_format (chars "/w.sh") (chars "--input") (chars "a.txt")
      [chars "a.txt"] [] (by decide) (by decide)⟩

/-- C8: submission fails with the parse error exactly when shlex
tokenization of the submit command fails or yields no tokens; otherwise the
first token is spawned as the program with the remaining tokens plus the
script path appended as final argument, and a non-zero exit status produces
the failure outcome carrying program, script path and trimmed stderr. -/
theorem submit_job_spec (submit script : List Char)
    (spawn : List Char → List (List Char) → Option ProcOut) :
    (submit_job submit script spawn = SubmitOutcome.submitParse ↔
      shlex_split submit = none ∨ shlex_split submit = some []) ∧
    (∀ (prog : List Char) (args : List (List Char)) (out : ProcOut),
      shlex_split submit = some (prog :: args) →
      spawn prog (args ++ [script]) = some out →
      submit_job submit script spawn =
        (if out.status = 0 then SubmitOutcome.success (utf8LossyBytes out.stdout)
         else SubmitOutcome.submitFailed prog script (trimStr (utf8LossyChars out.stderr)))) := by
  constructor
  · rcases hsp : shlex_split submit with _ | toks
    · simp [submit_job, hsp]
    · cases toks with
      | nil => simp [submit_job, hsp]
      | cons p a =>
          simp only [submit_job, hsp]
          constructor
          · intro h
            rcases hspawn : spawn p (a ++ [script]) with _ | out
            · rw [hspawn] at h
              exact absurd h (by simp)
            · rw [hspawn] at h
              have h2 : (if out.status = 0 then
                    SubmitOutcome.success (utf8LossyBytes out.stdout)
                  else SubmitOutcome.submitFailed p script
                    (trimStr (utf8LossyChars out.stderr))) =
                  SubmitOutcome.submitParse := h
              by_cases hst : out.status = 0
              · rw [if_pos hst] at h2
                exact absurd h2 (by simp)
              · rw [if_neg hst] at h2
                exact absurd h2 (by simp)
          · intro h
            rcases h with h | h
            · exact absurd h (by simp)
            · exact absurd h (by simp)
  · intro prog args out hsp hspawn
    simp only [submit_job, hsp, hspawn]

theorem utf8LossyBytes_valid (l : List Nat) (hv : validUtf8 l = true) :
    utf8LossyBytes l = l := by
  have H : ∀ (n : Nat) (l : List Nat), l.length ≤ n → validUtf8 l = true →
      utf8LossyBytes l = l := by
    intro n
    induction n with
    | zero =>
        intro l hl _
        have hnil : l = [] := List.length_eq_zero.mp (by omega)
        subst hnil
        simp [utf8LossyBytes]
    | succ n ih =>
        intro l hl hv
        cases l with
        | nil => simp [utf8LossyBytes]
        | cons b rest =>
            have hlen : rest.length ≤ n := by simp at hl; omega
            rw [validUtf8.eq_def] at hv
            rw [utf8LossyBytes.eq_def]
            simp only [] at hv ⊢
            by_cases h7 : b ≤ 0x7F
            · rw [if_pos h7] at hv ⊢
              rw [ih rest hlen hv]
            · rw [if_neg h7] at hv ⊢
              by_cases h2 : 0xC2 ≤ b ∧ b ≤ 0xDF
              · rw [if_pos h2] at hv ⊢
                cases rest with
                | nil => simp at hv
                | cons b1 r1 =>
                    simp only [] at hv ⊢
                    rw [Bool.and_eq_true] at hv
                    obtain ⟨hc, hval⟩ := hv
                    rw [if_pos hc, ih r1 (by simp at hlen; omega) hval]
              · rw [if_neg h2] at hv ⊢
                by_cases h3 : 0xE0 ≤ b ∧ b ≤ 0xEF
                · rw [if_pos h3] at hv ⊢
                  cases rest with
                  | nil => simp at hv
                  | cons b1 r1 =>
                      simp only [] at hv ⊢
                      rw [Bool.and_eq_true] at hv
                      obtain ⟨hc1, hv3⟩ := hv
                      rw [if_pos hc1]
                      cases r1 with
                      | nil => simp at hv3
                      | cons b2 r2 =>
                          simp only [] at hv3 ⊢
                          rw [Bool.and_eq_true] at hv3
                          obtain ⟨hc2, hval⟩ := hv3
                          rw [if_pos hc2, ih r2 (by simp at hlen; omega) hval]
                · rw [if_neg h3] at hv ⊢
                  by_cases h4 : 0xF0 ≤ b ∧ b ≤ 0xF4
                  · rw [if_pos h4] at hv ⊢
                    cases rest with
                    | nil => simp at hv
                    | cons b1 r1 =>
                        simp only [] at hv ⊢
                        rw [Bool.and_eq_true] at hv
                        obtain ⟨hc1, hv3⟩ := hv
                        rw [if_pos hc1]
                        cases r1 with
                        | nil => simp at hv3
                        | cons b2 r2 =>
                            simp only [] at hv3 ⊢
                            rw [Bool.and_eq_true] at hv3
                            obtain ⟨hc2, hv5⟩ := hv3
                            rw [if_pos hc2]
                            cases r2 with
                            | nil => simp at hv5
                            | cons b3 r3 =>
                                simp only [] at hv5 ⊢
                                rw [Bool.and_eq_true] at hv5
                                obtain ⟨hc3, hval⟩ := hv5
                                rw [if_pos hc3, ih r3 (by simp at hlen; omega) hval]
                  · rw [if_neg h4] at hv
                    simp at hv
  exact H l.length l (le_refl _) hv

/-- C9 counterexample: a submission whose stdout is the single invalid
UTF-8 byte 0xFF succeeds, but the bytes forwarded to the caller's stdout
are the UTF-8 replacement character, not the captured byte. -/
theorem stdout_forward_counterexample :
    submit_job (chars "sh") (chars "/s") (fun _ _ => some ⟨0, [0xFF], []⟩) =
      SubmitOutcome.success [0xEF, 0xBF, 0xBD] ∧
    ([0xEF, 0xBF, 0xBD] : List Nat) ≠ ([0xFF] : List Nat) := by
  constructor
  · have h1 : shlex_split (chars "sh") = some [chars "sh"] := by decide
    simp only [submit_job, h1]
    norm_num
    rw [utf8LossyBytes.eq_def]
    norm_num
    have h0 : utf8LossyBytes [] = [] := by rw [utf8LossyBytes.eq_def]
    rw [h0]
    decide
  · decide

/-- C9 (amended): on exit status zero the submission driver forwards the
lossy UTF-8 decoding of the captured stdout, with no trailing newline
appended; whenever the captured stdout is valid UTF-8 this is the captured
byte string itself, byte for byte. -/
theorem stdout_forward_amended (submit script prog : List Char)
    (args : List (List Char)) (out : ProcOut)
    (spawn : List Char → List (List Char) → Option ProcOut)
    (h1 : shlex_split submit = some (prog :: args))
    (h2 : spawn prog (args ++ [script]) = some out)
    (h3 : out.status = 0) :
    submit_job submit script spawn = SubmitOutcome.success (utf8LossyBytes out.stdout) ∧
    (validUtf8 out.stdout = true → utf8LossyBytes out.stdout = out.stdout) := by
  constructor
  · simp only [submit_job, h1, h2, if_pos h3]
  · exact utf8LossyBytes_valid out.stdout

/-- Witness for C9 with a valid-UTF-8 stdout. -/
theorem stdout_forward_amended_witness :
    shlex_split (chars "sh") = some [chars "sh"] ∧
    ((fun (_ : List Char) (_ : List (List Char)) => some ⟨0, [104, 105], []⟩ :
        List Char → List (List Char) → Option ProcOut) (chars "sh")
      ([] ++ [chars "/s"]) = some ⟨0, [104, 105], []⟩) ∧
    (ProcOut.mk 0 [104, 105] []).status = 0 ∧
    (submit_job (chars "sh") (chars "/s") (fun _ _ => some ⟨0, [104, 105], []⟩) =
        SubmitOutcome.success (utf8LossyBytes (ProcOut.mk 0 [104, 105] []).stdout) ∧
      (validUtf8 (ProcOut.mk 0 [104, 105] []).stdout = true →
        utf8LossyBytes (ProcOut.mk 0 [104, 105] []).stdout =
          (ProcOut.mk 0 [104, 105] []).stdout)) :=
  ⟨by decide, rfl, rfl,
    stdout_forward_amended (chars "sh") (chars "/s") (chars "sh") [] ⟨0, [104, 105], []⟩
      (fun _ _ => some ⟨0, [104, 105], []⟩) (by decide) rfl rfl⟩

/-- C10: the cleanup pass deletes exactly those regular files whose name
starts with the prefix plus a dash and ends with `.batch.sh`; every other
entry survives, in its original position (the remaining listing is a
sublist of the original). -/
theorem cleanup_old_batch_scripts_spec (p : List Char) (entries : List DirEntry) :
    (cleanup_old_batch_scripts p entries).Sublist entries ∧
    ∀ e : DirEntry, e ∈ cleanup_old_batch_scripts p entries ↔
      (e ∈ entries ∧
        ¬(e.isFile = true ∧ (p ++ chars "-").isPrefixOf e.name = true ∧
          (chars ".batch.sh").isSuffixOf e.name = true)) := by
  constructor
  · exact List.filter_sublist _
  · intro e
    constructor
    · intro hm
      obtain ⟨he, hp⟩ := List.mem_filter.mp hm
      rw [Bool.not_eq_true'] at hp
      refine ⟨he, ?_⟩
      rintro ⟨ha, hb, hc⟩
      rw [ha, hb, hc] at hp
      exact absurd hp (by simp)
    · rintro ⟨he, hn⟩
      refine List.mem_filter.mpr ⟨he, ?_⟩
      rw [Bool.not_eq_true']
      cases hcase : (e.isFile && (p ++ chars "-").isPrefixOf e.name &&
          (chars ".batch.sh").isSuffixOf e.name) with
      | false => rfl
      | true =>
          rw [Bool.and_eq_true, Bool.and_eq_true] at hcase
          exact absurd ⟨hcase.1.1, hcase.1.2, hcase.2⟩ hn
